import Mathlib

/-!
Shallow embedding of the module-extraction pipeline
(crawler, link extractor, chunker, similarity utilities, deduplicator),
translated from the Python sources, together with theorems settling the
specification claims.  Strings are modelled over ASCII; Python floats are
modelled by exact rationals (all scores here are small exact fractions).
-/

namespace ModuleExtraction

/-! ### Models of the Python string primitives used by the sources -/

/-- Python `str.lower` on one character (ASCII range). -/
def asciiLowerChar (c : Char) : Char :=
  if 'A' ≤ c ∧ c ≤ 'Z' then Char.ofNat (c.toNat + 32) else c

/-- Python `str.lower` (ASCII range). -/
def asciiLower (s : String) : String := String.mk (s.data.map asciiLowerChar)

/-- Python whitespace, as stripped by `str.strip()` (ASCII range). -/
def isPySpace (c : Char) : Bool :=
  c = ' ' ∨ c = '\t' ∨ c = '\n' ∨ c = '\r' ∨ c.toNat = 11 ∨ c.toNat = 12

/-- Python `str.strip()`. -/
def pyStrip (s : String) : String :=
  String.mk (((s.data.dropWhile isPySpace).reverse.dropWhile isPySpace).reverse)

/-- Helper for `pySplit`: accumulates the current piece in reverse. -/
def splitCharAux (sep : Char) : List Char → List Char → List String
  | [], acc => [String.mk acc.reverse]
  | c :: cs, acc =>
    if c = sep then String.mk acc.reverse :: splitCharAux sep cs []
    else splitCharAux sep cs (c :: acc)

/-- Python `str.split(sep)` for a one-character separator. -/
def pySplit (sep : Char) (s : String) : List String := splitCharAux sep s.data []

/-- Python `sep.join(parts)`. -/
def pyJoin (sep : String) (parts : List String) : String :=
  String.mk (List.intercalate sep.data (parts.map String.data))

/-- Python `str.startswith`. -/
def pyStartsWith (s pre : String) : Bool := s.data.take pre.data.length = pre.data

/-- Python `str.endswith` for a single character. -/
def pyEndsWithChar (s : String) (c : Char) : Bool := s.data.getLast? = some c

/-! ### Model of `urllib.parse.urlparse` (ASCII) -/

/-- Characters allowed in a URL scheme (`urllib.parse.scheme_chars`). -/
def isSchemeChar (c : Char) : Bool :=
  ('a' ≤ c ∧ c ≤ 'z') ∨ ('A' ≤ c ∧ c ≤ 'Z') ∨ ('0' ≤ c ∧ c ≤ '9') ∨
    c = '+' ∨ c = '-' ∨ c = '.'

def isAsciiAlpha (c : Char) : Bool := ('a' ≤ c ∧ c ≤ 'z') ∨ ('A' ≤ c ∧ c ≤ 'Z')

/-- Result record of `urllib.parse.urlparse`. -/
structure ParsedUrl where
  scheme : String
  netloc : String
  path : String
  params : String
  query : String
  fragment : String
deriving DecidableEq

/-- The part of `s` strictly before the first occurrence of `c` (all of `s` if absent). -/
def beforeChar (c : Char) (s : List Char) : List Char := s.takeWhile (fun x => x ≠ c)

/-- The part of `s` strictly after the first occurrence of `c` (`[]` if absent). -/
def afterChar (c : Char) (s : List Char) : List Char := (s.dropWhile (fun x => x ≠ c)).drop 1

/-- A character ending the netloc component: `/`, `?` or `#`. -/
def isNetlocDelim (c : Char) : Bool := c = '/' ∨ c = '?' ∨ c = '#'

/-- `urllib.parse._splitparams`: split `;params` out of the last path segment. -/
def splitParams (p : List Char) : List Char × List Char :=
  if '/' ∈ p then
    let seg := (p.reverse.takeWhile (fun c => c ≠ '/')).reverse
    if ';' ∈ seg then
      (p.take (p.length - seg.length) ++ beforeChar ';' seg, afterChar ';' seg)
    else (p, [])
  else if ';' ∈ p then (beforeChar ';' p, afterChar ';' p) else (p, [])

/-- The scheme step of `urlsplit`: a scheme is recognized when every character
before the first `:` is a scheme character and the first is a letter; the
scheme is lowercased.  Returns the scheme and the remainder. -/
def schemeSplit (s : List Char) : String × List Char :=
  match s.dropWhile isSchemeChar with
  | ':' :: r =>
    if s.takeWhile isSchemeChar ≠ [] ∧
        isAsciiAlpha ((s.takeWhile isSchemeChar).headD 'a') then
      (String.mk ((s.takeWhile isSchemeChar).map asciiLowerChar), r)
    else ("", s)
  | _ => ("", s)

/-- The netloc step of `urlsplit`: after a leading `//`, the netloc runs to
the next `/`, `?` or `#`.  Returns the netloc and the remainder. -/
def netlocSplit (s : List Char) : List Char × List Char :=
  match s with
  | '/' :: '/' :: r =>
    (r.takeWhile (fun c => ¬ isNetlocDelim c),
     r.dropWhile (fun c => ¬ isNetlocDelim c))
  | _ => ([], s)

/-- `urllib.parse.urlparse` (ASCII model): scheme, then `//netloc`, then the
fragment after the first `#`, then the query after the first `?`, then
`;params` split out of the last path segment. -/
def urlparse (url : String) : ParsedUrl :=
  let sr := schemeSplit url.data
  let nr := netlocSplit sr.2
  let fragment := afterChar '#' nr.2
  let beforeFrag := beforeChar '#' nr.2
  let query := afterChar '?' beforeFrag
  let pp := splitParams (beforeChar '?' beforeFrag)
  { scheme := sr.1
    netloc := String.mk nr.1
    path := String.mk pp.1
    params := String.mk pp.2
    query := String.mk query
    fragment := String.mk fragment }

/-! ### `CrawlerAgent._normalize_url` and `CrawlerAgent._is_same_domain` -/

/-- `CrawlerAgent._normalize_url`. -/
def normalize_url (url : String) : String :=
  let parsed := urlparse url
  let normalized := parsed.scheme ++ "://" ++ parsed.netloc ++ parsed.path
  let normalized :=
    if parsed.query ≠ "" then normalized ++ "?" ++ parsed.query else normalized
  if pyEndsWithChar normalized '/' ∧ 1 < parsed.path.length then
    String.mk normalized.data.dropLast
  else normalized

/-- `CrawlerAgent._is_same_domain`. -/
def is_same_domain (url1 url2 : String) : Bool :=
  (urlparse url1).netloc = (urlparse url2).netloc

/-! ### `utils.similarity_utils` -/

/-- A regex `\w` word character (ASCII range). -/
def isWordChar (c : Char) : Bool :=
  isAsciiAlpha c ∨ ('0' ≤ c ∧ c ≤ '9') ∨ c = '_'

/-- Helper for `wordList`: accumulates the current word in reverse. -/
def wordsAux : List Char → List Char → List String
  | [], acc => if acc = [] then [] else [String.mk acc.reverse]
  | c :: cs, acc =>
    if isWordChar c then wordsAux cs (c :: acc)
    else if acc = [] then wordsAux cs [] else String.mk acc.reverse :: wordsAux cs []

/-- `re.findall(r'\b\w+\b', text.lower())`: the maximal runs of word characters
of the lowercased text. -/
def wordList (text : String) : List String := wordsAux (asciiLower text).data []

/-- The word set built by `simple_similarity`'s `normalize`
(`sorted(set(words))`, used only through its set of elements and its length). -/
def wordSet (text : String) : Finset String := (wordList text).toFinset

/-- `simple_similarity`: `0.6 * Jaccard + 0.4 * overlap`, `0` on empty word sets. -/
def simple_similarity (text1 text2 : String) : ℚ :=
  let words1 := wordSet text1
  let words2 := wordSet text2
  if words1 = ∅ ∨ words2 = ∅ then 0
  else
    let intersection : ℚ := ((words1 ∩ words2).card : ℚ)
    let union : ℚ := ((words1 ∪ words2).card : ℚ)
    if union = 0 then 0
    else
      let jaccard := intersection / union
      let overlap := intersection / ((min words1.card words2.card : ℕ) : ℚ)
      jaccard * (6 / 10) + overlap * (4 / 10)

/-- A module record: `{"module": ..., "Description": ..., "Submodules": ...}`,
with the dictionary of submodules as an insertion-ordered association list. -/
structure Module where
  module : String
  Description : String
  Submodules : List (String × String)
deriving DecidableEq, Inhabited

/-- The combined score computed inside `are_similar`:
`0.6 * name similarity + 0.4 * description similarity`. -/
def combined_similarity (module1 module2 : Module) : ℚ :=
  let name_sim := simple_similarity module1.module module2.module
  let desc_sim := simple_similarity module1.Description module2.Description
  name_sim * (6 / 10) + desc_sim * (4 / 10)

/-- `are_similar`: the combined score reaches the threshold. -/
def are_similar (module1 module2 : Module) (threshold : ℚ) : Bool :=
  decide (threshold ≤ combined_similarity module1 module2)

/-- Value override for `dictMerge`: the entry of `d1` keeps its key and takes
`d2`'s value when `d2` has the same key. -/
def overrideEntry (d2 : List (String × String)) (p : String × String) :
    String × String :=
  match d2.find? (fun q => q.1 = p.1) with
  | some q => (p.1, q.2)
  | none => p

/-- Python `{**d1, **d2}` on insertion-ordered dictionaries: keys of `d1`
in order (values overridden by `d2` where present), then the new keys of `d2`. -/
def dictMerge (d1 d2 : List (String × String)) : List (String × String) :=
  d1.map (overrideEntry d2) ++ d2.filter (fun q => d1.all (fun p => p.1 ≠ q.1))

/-- `merge_modules`. -/
def merge_modules (module1 module2 : Module) : Module :=
  let name1 := module1.module
  let name2 := module2.module
  let merged_name := if name2.length ≤ name1.length then name1 else name2
  let desc1 := module1.Description
  let desc2 := module2.Description
  let joined := pyStrip (desc1 ++ " " ++ desc2)
  let merged_desc := if desc2.length < desc1.length then desc1 else joined
  { module := merged_name
    Description := merged_desc
    Submodules := dictMerge module1.Submodules module2.Submodules }

/-! ### `utils.html_utils.extract_internal_links` -/

/-- Processing of one anchor by `extract_internal_links`: the resolved
absolute URL is parsed; a same-domain or host-relative link is rebuilt as
`scheme://netloc/path[?query]` (fragment dropped, base scheme and host
substituted for empty components) and inserted if it is an `http(s)` URL not
already collected. -/
def addLink (base_scheme base_domain : String) (acc : List String)
    (absolute_url : String) : List String :=
  let parsed := urlparse absolute_url
  if parsed.netloc = base_domain ∨ (parsed.netloc = "" ∧ parsed.path ≠ "") then
    let scheme := if parsed.scheme = "" then base_scheme else parsed.scheme
    let netloc := if parsed.netloc = "" then base_domain else parsed.netloc
    let clean_url := scheme ++ "://" ++ netloc ++ parsed.path
    let clean_url :=
      if parsed.query ≠ "" then clean_url ++ "?" ++ parsed.query else clean_url
    if pyStartsWith clean_url "http://" ∨ pyStartsWith clean_url "https://" then
      if clean_url ∈ acc then acc else acc ++ [clean_url]
    else acc
  else acc

/-- `extract_internal_links`, parametrized by the library primitives it calls:
`hrefs html` lists the `href` attributes of the anchors BeautifulSoup finds in
`html` (in document order), and `ujoin base href` is `urllib.parse.urljoin`.
The Python function returns a set; the model returns the deduplicated list of
insertions. -/
def extract_internal_links (hrefs : String → List String)
    (ujoin : String → String → String) (html base_url : String) : List String :=
  (hrefs html).foldl
    (fun acc href => addLink (urlparse base_url).scheme (urlparse base_url).netloc
      acc (ujoin base_url href)) []

/-! ### `CrawlerAgent.fetch_page` and `CrawlerAgent.crawl` -/

inductive PageStatus where
  | success
  | skipped
  | error
deriving DecidableEq

structure Page where
  url : String
  html : String
  status : PageStatus
deriving DecidableEq

/-- `CrawlerAgent.fetch_page`, with the network modelled as a partial map
`web` from URL to response body (`none` = request failure after retries).
Returns the page record together with the updated visited set. -/
def fetch_page (web : String → Option String) (visited : List String)
    (url : String) : Page × List String :=
  let normalized_url := normalize_url url
  if normalized_url ∈ visited then (⟨normalized_url, "", .skipped⟩, visited)
  else
    match web normalized_url with
    | some body => (⟨normalized_url, body, .success⟩, normalized_url :: visited)
    | none => (⟨normalized_url, "", .error⟩, visited)

/-- The crawl loop's enqueueing of freshly extracted links: a link is queued
when its normalization is unvisited, not already queued, and on the same
domain as the page it came from. -/
def enqueueLinks (visited : List String) (current_url : String) :
    List String → List String → List String
  | queue, [] => queue
  | queue, link :: rest =>
    let normalized_link := normalize_url link
    if normalized_link ∉ visited ∧ normalized_link ∉ queue ∧
        is_same_domain normalized_link current_url then
      enqueueLinks visited current_url (queue ++ [normalized_link]) rest
    else enqueueLinks visited current_url queue rest

/-- The `while queue and len(pages) < self.max_pages` loop of
`CrawlerAgent.crawl`. `links html base` models
`extract_internal_links(html, base)`. -/
def crawlLoop (max_pages : Nat) (web : String → Option String)
    (links : String → String → List String) :
    List String → List String → List Page → List Page
  | [], _, pages => pages
  | current_url :: rest, visited, pages =>
    if h : max_pages ≤ pages.length then pages
    else if current_url ∈ visited then
      crawlLoop max_pages web links rest visited pages
    else
      let pv := fetch_page web visited current_url
      if pv.1.status = .success ∧ pv.1.html ≠ "" then
        crawlLoop max_pages web links
          (enqueueLinks pv.2 current_url rest (links pv.1.html current_url))
          pv.2 (pages ++ [pv.1])
      else
        crawlLoop max_pages web links rest pv.2 pages
  termination_by queue _ pages => (max_pages - pages.length, queue.length)
  decreasing_by
    · apply Prod.Lex.right
      exact Nat.lt_succ_self _
    · apply Prod.Lex.left
      simp only [List.length_append, List.length_cons, List.length_nil]
      omega
    · apply Prod.Lex.right
      exact Nat.lt_succ_self _

/-- `CrawlerAgent.crawl`: the visited set is cleared, the queue seeded with
the normalized start URLs, and the loop run. -/
def crawl (max_pages : Nat) (web : String → Option String)
    (links : String → String → List String) (start_urls : List String) :
    List Page :=
  crawlLoop max_pages web links (start_urls.map normalize_url) [] []

/-! ### `ChunkingAgent.chunk` -/

structure CleanedPage where
  url : String
  title : String
  content : String

structure Chunk where
  url : String
  content : String
  title : String
  chunk_index : Nat
deriving DecidableEq

/-- The fallback branch of `ChunkingAgent._count_tokens`
(`len(text) // 4`); the tiktoken branch is kept abstract as a parameter
`tok` wherever the agent is modelled. -/
def fallback_count_tokens (text : String) : Nat := text.length / 4

/-- The line-accumulation loop of `ChunkingAgent.chunk` on one page's lines:
returns the successive buffers (each flushed buffer, then the remainder). -/
def chunkBuffers (min_tokens max_tokens : Nat) (tok : String → Nat) :
    List String → List String → Nat → List (List String)
  | [], current_chunk, _ => if current_chunk = [] then [] else [current_chunk]
  | line :: rest, current_chunk, current_tokens =>
    let line_tokens := tok line
    if max_tokens < current_tokens + line_tokens ∧ min_tokens ≤ current_tokens then
      current_chunk :: chunkBuffers min_tokens max_tokens tok rest [line] line_tokens
    else
      chunkBuffers min_tokens max_tokens tok rest (current_chunk ++ [line])
        (current_tokens + line_tokens)

/-- Emission of one page's buffers, appending to the global chunk list: each
buffer whose stripped text is non-empty becomes a chunk whose index is the
number of chunks already emitted for the same URL. -/
def emitChunks (url title : String) : List Chunk → List (List String) → List Chunk
  | chunks, [] => chunks
  | chunks, buf :: bufs =>
    let chunk_text := pyStrip (pyJoin "\n" buf)
    if chunk_text = "" then emitChunks url title chunks bufs
    else
      emitChunks url title
        (chunks ++ [⟨url, chunk_text, title,
          (chunks.filter (fun c => c.url = url)).length⟩]) bufs

/-- `ChunkingAgent.chunk`, parametrized by the token counter `tok`. -/
def chunk (min_tokens max_tokens : Nat) (tok : String → Nat)
    (pages : List CleanedPage) : List Chunk :=
  pages.foldl (fun chunks page =>
    if pyStrip page.content = "" then chunks
    else emitChunks page.url page.title chunks
      (chunkBuffers min_tokens max_tokens tok (pySplit '\n' page.content) [] 0)) []

/-! ### `DedupAgent` -/

/-- The inner absorption pass of `DedupAgent._similarity_deduplicate`: the
current module absorbs, left to right, every later module scoring at or above
the threshold; returns the accumulated module and the unabsorbed remainder. -/
def absorb (threshold : ℚ) : Module → List Module → Module × List Module
  | current, [] => (current, [])
  | current, module2 :: rest =>
    if are_similar current module2 threshold then
      absorb threshold (merge_modules current module2) rest
    else
      let cr := absorb threshold current rest
      (cr.1, module2 :: cr.2)

/-- The outer greedy pass of `_similarity_deduplicate`. `fuel` only bounds the
recursion depth; `modules.length` always suffices (`dedupGo_fuel`). -/
def dedupGo (threshold : ℚ) : Nat → List Module → List Module
  | 0, modules => modules
  | _ + 1, [] => []
  | fuel + 1, module1 :: rest =>
    let cr := absorb threshold module1 rest
    cr.1 :: dedupGo threshold fuel cr.2

/-- `DedupAgent._similarity_deduplicate`. -/
def similarity_deduplicate (threshold : ℚ) (modules : List Module) : List Module :=
  if modules.length ≤ 1 then modules
  else dedupGo threshold modules.length modules

/-- The parsed JSON object consumed by `DedupAgent._llm_deduplicate_batch`:
`duplicates` is a list of 1-based index groups, `keep` a list of 1-based
indices (consumed with set semantics). -/
structure LLMResponse where
  duplicates : List (List Int)
  keep : List Int

/-- One duplicate group's conversion to 0-based indices with out-of-range
entries dropped (`[idx - 1 for idx in dup_group if 0 < idx <= len(modules)]`). -/
def groupIndices (n : Nat) (dup_group : List Int) : List Nat :=
  dup_group.filterMap (fun idx =>
    if 0 < idx ∧ idx ≤ (n : Int) then some (idx - 1).toNat else none)

/-- Processing of one duplicates group by `_llm_deduplicate_batch`: when the
filtered group still has more than one index, the named modules are merged
left to right and appended to `merged_modules`, and the indices are added
to `processed_indices`. -/
def processGroup (modules : List Module) (st : List Module × List Nat)
    (dup_group : List Int) : List Module × List Nat :=
  let indices := groupIndices modules.length dup_group
  if 1 < indices.length then
    match indices with
    | [] => st
    | i0 :: irest =>
      (st.1 ++ [irest.foldl
          (fun m idx => merge_modules m (modules.getD idx default))
          (modules.getD i0 default)],
       st.2 ++ indices)
  else st

/-- Processing of one `keep` index by `_llm_deduplicate_batch`: an in-range,
not-yet-processed 0-based index appends its module unchanged. -/
def keepStep (modules : List Module) (processed : List Nat)
    (acc : List Module) (idx : Int) : List Module :=
  let zero_based := idx - 1
  if 0 ≤ zero_based ∧ zero_based < (modules.length : Int) ∧
      zero_based.toNat ∉ processed then
    acc ++ [modules.getD zero_based.toNat default]
  else acc

/-- `DedupAgent._llm_deduplicate_batch`, with the model's parsed response as a
parameter.  The first component of the fold state is `merged_modules`, the
second `processed_indices`. -/
def llm_deduplicate_batch (modules : List Module) (response : LLMResponse) :
    List Module :=
  if modules.length ≤ 1 then modules
  else
    let step := response.duplicates.foldl (processGroup modules) ([], [])
    let afterKeep := response.keep.dedup.foldl (keepStep modules step.2) step.1
    if afterKeep = [] then modules else afterKeep

/-- Lookup in an insertion-ordered dictionary (first occurrence of the key). -/
def lookupDict (d : List (String × String)) (k : String) : Option String :=
  (d.find? (fun p => p.1 = k)).map (fun p => p.2)

/-! ## Theorems -/

lemma simple_similarity_comm (text1 text2 : String) :
    simple_similarity text1 text2 = simple_similarity text2 text1 := by
  unfold simple_similarity
  by_cases h1 : wordSet text1 = ∅
  · by_cases h2 : wordSet text2 = ∅ <;> simp [h1, h2]
  · by_cases h2 : wordSet text2 = ∅
    · simp [h1, h2]
    · simp only [h1, h2, or_false, false_or, if_neg, if_false]
      rw [Finset.inter_comm, Finset.union_comm, Nat.min_comm]

/-- C5: the combined score computed by `are_similar`
(`0.6 * name similarity + 0.4 * description similarity`) is equal on `(A, B)`
and `(B, A)`, so `are_similar A B t = are_similar B A t` for every
threshold `t`. -/
theorem are_similar_symmetric (module1 module2 : Module) (threshold : ℚ) :
    combined_similarity module1 module2 = combined_similarity module2 module1 ∧
    are_similar module1 module2 threshold = are_similar module2 module1 threshold := by
  have h : combined_similarity module1 module2 = combined_similarity module2 module1 := by
    unfold combined_similarity
    rw [simple_similarity_comm module1.module, simple_similarity_comm module1.Description]
  refine ⟨h, ?_⟩
  unfold are_similar
  rw [h]

lemma simple_similarity_nonneg_le_one (text1 text2 : String) :
    0 ≤ simple_similarity text1 text2 ∧ simple_similarity text1 text2 ≤ 1 := by
  unfold simple_similarity
  by_cases h1 : wordSet text1 = ∅
  · simp [h1]
  · by_cases h2 : wordSet text2 = ∅
    · simp [h1, h2]
    · simp only [h1, h2, or_self, if_false, false_or, or_false, if_neg]
      have hw1 : (wordSet text1).Nonempty := Finset.nonempty_iff_ne_empty.mpr h1
      have hw2 : (wordSet text2).Nonempty := Finset.nonempty_iff_ne_empty.mpr h2
      have hu : 0 < (wordSet text1 ∪ wordSet text2).card :=
        Finset.card_pos.mpr (Finset.Nonempty.inr hw2)
      have hm : 0 < min (wordSet text1).card (wordSet text2).card :=
        lt_min (Finset.card_pos.mpr hw1) (Finset.card_pos.mpr hw2)
      have huq : (0 : ℚ) < ((wordSet text1 ∪ wordSet text2).card : ℚ) := by
        exact_mod_cast hu
      have hmq : (0 : ℚ) < ((min (wordSet text1).card (wordSet text2).card : ℕ) : ℚ) := by
        exact_mod_cast hm
      rw [if_neg huq.ne']
      have hiu : ((wordSet text1 ∩ wordSet text2).card : ℚ) ≤
          ((wordSet text1 ∪ wordSet text2).card : ℚ) := by
        exact_mod_cast Finset.card_le_card (Finset.inter_subset_union)
      have him : ((wordSet text1 ∩ wordSet text2).card : ℚ) ≤
          ((min (wordSet text1).card (wordSet text2).card : ℕ) : ℚ) := by
        exact_mod_cast Nat.le_min.mpr
          ⟨Finset.card_le_card Finset.inter_subset_left,
           Finset.card_le_card Finset.inter_subset_right⟩
      have hj0 : (0 : ℚ) ≤ ((wordSet text1 ∩ wordSet text2).card : ℚ) / _ :=
        div_nonneg (by positivity) huq.le
      have ho0 : (0 : ℚ) ≤ ((wordSet text1 ∩ wordSet text2).card : ℚ) / _ :=
        div_nonneg (by positivity) hmq.le
      have hj1 : ((wordSet text1 ∩ wordSet text2).card : ℚ) /
          ((wordSet text1 ∪ wordSet text2).card : ℚ) ≤ 1 :=
        (div_le_one huq).mpr hiu
      have ho1 : ((wordSet text1 ∩ wordSet text2).card : ℚ) /
          ((min (wordSet text1).card (wordSet text2).card : ℕ) : ℚ) ≤ 1 :=
        (div_le_one hmq).mpr him
      constructor
      · have := mul_nonneg hj0 (by norm_num : (0:ℚ) ≤ 6/10)
        have := mul_nonneg ho0 (by norm_num : (0:ℚ) ≤ 4/10)
        linarith
      · have h6 : ((wordSet text1 ∩ wordSet text2).card : ℚ) /
            ((wordSet text1 ∪ wordSet text2).card : ℚ) * (6/10) ≤ 1 * (6/10) :=
          mul_le_mul_of_nonneg_right hj1 (by norm_num)
        have h4 : ((wordSet text1 ∩ wordSet text2).card : ℚ) /
            ((min (wordSet text1).card (wordSet text2).card : ℕ) : ℚ) * (4/10) ≤
              1 * (4/10) :=
          mul_le_mul_of_nonneg_right ho1 (by norm_num)
        linarith

lemma simple_similarity_self (text : String) (h : wordSet text ≠ ∅) :
    simple_similarity text text = 1 := by
  unfold simple_similarity
  have hc : 0 < (wordSet text).card :=
    Finset.card_pos.mpr (Finset.nonempty_iff_ne_empty.mpr h)
  have hcq : ((wordSet text).card : ℚ) ≠ 0 := by
    exact_mod_cast hc.ne'
  simp only [h, or_self, if_false, Finset.inter_self, Finset.union_self,
    Nat.min_self, if_neg hcq]
  rw [div_self hcq]
  norm_num

/-- C9: `simple_similarity` always lies in `[0, 1]`; it is `0` whenever either
word set is empty, `1` on any text with a non-empty word set compared with
itself, and the combined score used by `are_similar` also lies in `[0, 1]`. -/
theorem similarity_score_bounds :
    (∀ text1 text2 : String,
      0 ≤ simple_similarity text1 text2 ∧ simple_similarity text1 text2 ≤ 1) ∧
    (∀ text1 text2 : String, wordSet text1 = ∅ ∨ wordSet text2 = ∅ →
      simple_similarity text1 text2 = 0) ∧
    (∀ text : String, wordSet text ≠ ∅ → simple_similarity text text = 1) ∧
    (∀ module1 module2 : Module,
      0 ≤ combined_similarity module1 module2 ∧
        combined_similarity module1 module2 ≤ 1) := by
  refine ⟨simple_similarity_nonneg_le_one, ?_, simple_similarity_self, ?_⟩
  · intro text1 text2 h
    unfold simple_similarity
    rcases h with h | h <;> simp [h]
  · intro module1 module2
    obtain ⟨hn0, hn1⟩ := simple_similarity_nonneg_le_one module1.module module2.module
    obtain ⟨hd0, hd1⟩ :=
      simple_similarity_nonneg_le_one module1.Description module2.Description
    unfold combined_similarity
    constructor
    · have := mul_nonneg hn0 (by norm_num : (0:ℚ) ≤ 6/10)
      have := mul_nonneg hd0 (by norm_num : (0:ℚ) ≤ 4/10)
      linarith
    · have h6 : simple_similarity module1.module module2.module * (6/10) ≤
          1 * (6/10) := mul_le_mul_of_nonneg_right hn1 (by norm_num)
      have h4 : simple_similarity module1.Description module2.Description * (4/10) ≤
          1 * (4/10) := mul_le_mul_of_nonneg_right hd1 (by norm_num)
      linarith

/-- Witness for C9 at concrete inputs. -/
theorem similarity_score_bounds_witness :
    (wordSet "hello" ≠ ∅ ∧ simple_similarity "hello" "hello" = 1) ∧
    ((wordSet "" = ∅ ∨ wordSet "x y" = ∅) ∧ simple_similarity "" "x y" = 0) :=
  ⟨⟨by decide, similarity_score_bounds.2.2.1 "hello" (by decide)⟩,
   ⟨by decide, similarity_score_bounds.2.1 "" "x y" (by decide)⟩⟩

lemma find?_filter_eq {α : Type} (l : List α) (p f : α → Bool)
    (h : ∀ x, p x = true → f x = true) : (l.filter f).find? p = l.find? p := by
  induction l with
  | nil => rfl
  | cons a t ih =>
    by_cases hf : f a = true
    · rw [List.filter_cons_of_pos hf]
      by_cases hp : p a = true
      · rw [List.find?_cons_of_pos _ hp, List.find?_cons_of_pos _ hp]
      · rw [List.find?_cons_of_neg _ hp, List.find?_cons_of_neg _ hp, ih]
    · have hp : ¬ p a = true := fun hpa => hf (h a hpa)
      rw [List.filter_cons_of_neg hf, List.find?_cons_of_neg _ hp, ih]

lemma overrideEntry_fst (d2 : List (String × String)) (p : String × String) :
    (overrideEntry d2 p).1 = p.1 := by
  unfold overrideEntry
  split <;> rfl

lemma find?_some_applied {α : Type} (p : α → Bool) (l : List α) (a : α)
    (h : l.find? p = some a) : p a = true := List.find?_some h

lemma lookupDict_dictMerge (d1 d2 : List (String × String)) (k : String) :
    lookupDict (dictMerge d1 d2) k =
      match lookupDict d2 k with
      | some v => some v
      | none => lookupDict d1 k := by
  unfold lookupDict dictMerge
  rw [List.find?_append, List.find?_map]
  have hcomp : ((fun p : String × String => decide (p.1 = k)) ∘ overrideEntry d2) =
      (fun p : String × String => decide (p.1 = k)) := by
    funext x
    simp only [Function.comp_apply, overrideEntry_fst]
  rw [hcomp]
  rcases h1 : d1.find? (fun p => decide (p.1 = k)) with _ | q0
  · rw [h1]
    simp only [Option.map_none', Option.none_or]
    have hall : ∀ x : String × String, decide (x.1 = k) = true →
        (fun q : String × String => d1.all (fun p => decide (p.1 ≠ q.1))) x = true := by
      intro x hx
      have hxk : x.1 = k := of_decide_eq_true hx
      simp only [List.all_eq_true, decide_eq_true_eq]
      intro p hp
      have := List.find?_eq_none.mp h1 p hp
      simp only [decide_eq_true_eq] at this
      simp [hxk, this]
    rw [find?_filter_eq _ _ _ hall]
    rcases h2 : d2.find? (fun p => decide (p.1 = k)) with _ | q2 <;> rw [h2] <;> rfl
  · have hq0p := find?_some_applied (fun p : String × String => decide (p.1 = k)) d1 q0 h1
    have hq0 : q0.1 = k := of_decide_eq_true hq0p
    rw [h1]
    simp only [Option.map_some', Option.or_some]
    unfold overrideEntry
    rw [hq0]
    rcases h2 : d2.find? (fun q : String × String => decide (q.1 = k)) with _ | q2 <;>
      rfl

/-- C3 (amended): `merge_modules` keeps the longer module name (ties favour
the first operand); keeps the first operand's description alone only when it
is strictly longer than the second's, and otherwise keeps the stripped
space-joined concatenation (also when the second is strictly longer); unions
the submodule mappings with the second operand's entries overriding
same-named keys.  On the Billing scenario the merged module is named
"Billing Management" and its description is the concatenation
"Handles invoices Handles invoices and payments", not the longer description
alone. -/
theorem merge_modules_rule (module1 module2 : Module) :
    (merge_modules module1 module2).module =
      (if module2.module.length ≤ module1.module.length
       then module1.module else module2.module) ∧
    (merge_modules module1 module2).Description =
      (if module2.Description.length < module1.Description.length
       then module1.Description
       else pyStrip (module1.Description ++ " " ++ module2.Description)) ∧
    (∀ k : String,
      lookupDict (merge_modules module1 module2).Submodules k =
        match lookupDict module2.Submodules k with
        | some v => some v
        | none => lookupDict module1.Submodules k) ∧
    merge_modules ⟨"Billing", "Handles invoices", []⟩
        ⟨"Billing Management", "Handles invoices and payments", []⟩ =
      ⟨"Billing Management",
       "Handles invoices Handles invoices and payments", []⟩ :=
  ⟨rfl, rfl, fun k => lookupDict_dictMerge _ _ k, by decide⟩

lemma simple_similarity_of_empty (text1 text2 : String)
    (h : wordSet text1 = ∅ ∨ wordSet text2 = ∅) :
    simple_similarity text1 text2 = 0 := by
  unfold simple_similarity
  rcases h with h | h <;> simp [h]

lemma simple_similarity_eval (t1 t2 : String) (i u m : ℕ)
    (h1 : wordSet t1 ≠ ∅) (h2 : wordSet t2 ≠ ∅)
    (hi : (wordSet t1 ∩ wordSet t2).card = i)
    (hu : (wordSet t1 ∪ wordSet t2).card = u)
    (hm : min (wordSet t1).card (wordSet t2).card = m)
    (hu0 : u ≠ 0) :
    simple_similarity t1 t2 =
      (i : ℚ) / (u : ℚ) * (6/10) + (i : ℚ) / (m : ℚ) * (4/10) := by
  simp only [simple_similarity, h1, h2, or_self, if_false, hi, hu, hm,
    false_or, or_false]
  rw [if_neg (by exact_mod_cast hu0)]

lemma are_similar_true_of_eval (module1 module2 : Module) (threshold q : ℚ)
    (hq : combined_similarity module1 module2 = q) (h : threshold ≤ q) :
    are_similar module1 module2 threshold = true := by
  unfold are_similar
  rw [hq]
  exact decide_eq_true h

lemma are_similar_false_of_eval (module1 module2 : Module) (threshold q : ℚ)
    (hq : combined_similarity module1 module2 = q) (h : q < threshold) :
    are_similar module1 module2 threshold = false := by
  unfold are_similar
  rw [hq]
  exact decide_eq_false (not_le.mpr h)

lemma billing_score :
    combined_similarity ⟨"Billing", "Handles invoices", []⟩
      ⟨"Billing Management", "Handles invoices and payments", []⟩ = 7/10 := by
  unfold combined_similarity
  rw [simple_similarity_eval "Billing" "Billing Management" 1 2 1 (by decide)
      (by decide) (by decide) (by decide) (by decide) (by decide),
    simple_similarity_eval "Handles invoices" "Handles invoices and payments" 2 4 2
      (by decide) (by decide) (by decide) (by decide) (by decide) (by decide)]
  norm_num

/-- C3 counterexample: the two Billing modules do merge at threshold 0.7 into
one module named "Billing Management", but the merged Description is the
space-joined concatenation of both descriptions, not the strictly longer
description alone as the claim states. -/
theorem merge_modules_counterexample :
    similarity_deduplicate (7/10)
        [⟨"Billing", "Handles invoices", []⟩,
         ⟨"Billing Management", "Handles invoices and payments", []⟩] =
      [⟨"Billing Management",
        "Handles invoices Handles invoices and payments", []⟩] ∧
    "Handles invoices Handles invoices and payments" ≠
      "Handles invoices and payments" := by
  have hsim : are_similar ⟨"Billing", "Handles invoices", []⟩
      ⟨"Billing Management", "Handles invoices and payments", []⟩ (7/10) = true :=
    are_similar_true_of_eval _ _ _ _ billing_score le_rfl
  constructor
  · unfold similarity_deduplicate
    rw [if_neg (by decide)]
    simp only [dedupGo, absorb, hsim, if_true]
    decide
  · decide

lemma score_ab_abcde :
    combined_similarity ⟨"a b", "a b", []⟩ ⟨"a b c d e", "a b c d e", []⟩ = 16/25 := by
  unfold combined_similarity
  rw [simple_similarity_eval "a b" "a b c d e" 2 5 2 (by decide) (by decide)
      (by decide) (by decide) (by decide) (by decide)]
  norm_num

lemma score_ab_abc :
    combined_similarity ⟨"a b", "a b", []⟩ ⟨"a b c", "a b c", []⟩ = 4/5 := by
  unfold combined_similarity
  rw [simple_similarity_eval "a b" "a b c" 2 3 2 (by decide) (by decide)
      (by decide) (by decide) (by decide) (by decide)]
  norm_num

lemma score_merged_abcde :
    combined_similarity ⟨"a b c", "a b a b c", []⟩ ⟨"a b c d e", "a b c d e", []⟩ =
      19/25 := by
  unfold combined_similarity
  rw [simple_similarity_eval "a b c" "a b c d e" 3 5 3 (by decide) (by decide)
      (by decide) (by decide) (by decide) (by decide),
    simple_similarity_eval "a b a b c" "a b c d e" 3 5 3 (by decide) (by decide)
      (by decide) (by decide) (by decide) (by decide)]
  norm_num

/-- C4 counterexample: phase-1 deduplication is not idempotent.  On the three
modules below (each with name equal to its description) the first pass emits
two modules that again score `0.76 ≥ 0.7` against each other, because merging
mutated the module that later candidates were compared against; a second pass
therefore merges them. -/
theorem dedup_not_idempotent_counterexample :
    similarity_deduplicate (7/10)
        [⟨"a b", "a b", []⟩, ⟨"a b c d e", "a b c d e", []⟩, ⟨"a b c", "a b c", []⟩] =
      [⟨"a b c", "a b a b c", []⟩, ⟨"a b c d e", "a b c d e", []⟩] ∧
    similarity_deduplicate (7/10)
        [⟨"a b c", "a b a b c", []⟩, ⟨"a b c d e", "a b c d e", []⟩] =
      [⟨"a b c d e", "a b a b c a b c d e", []⟩] ∧
    similarity_deduplicate (7/10)
        (similarity_deduplicate (7/10)
          [⟨"a b", "a b", []⟩, ⟨"a b c d e", "a b c d e", []⟩,
           ⟨"a b c", "a b c", []⟩]) ≠
      similarity_deduplicate (7/10)
        [⟨"a b", "a b", []⟩, ⟨"a b c d e", "a b c d e", []⟩, ⟨"a b c", "a b c", []⟩] ∧
    are_similar ⟨"a b c", "a b a b c", []⟩ ⟨"a b c d e", "a b c d e", []⟩ (7/10) =
      true := by
  have h01 : are_similar ⟨"a b", "a b", []⟩ ⟨"a b c d e", "a b c d e", []⟩ (7/10) =
      false := are_similar_false_of_eval _ _ _ _ score_ab_abcde (by norm_num)
  have h02 : are_similar ⟨"a b", "a b", []⟩ ⟨"a b c", "a b c", []⟩ (7/10) = true :=
    are_similar_true_of_eval _ _ _ _ score_ab_abc (by norm_num)
  have hmerge : merge_modules ⟨"a b", "a b", []⟩ ⟨"a b c", "a b c", []⟩ =
      ⟨"a b c", "a b a b c", []⟩ := by decide
  have hm1 : are_similar ⟨"a b c", "a b a b c", []⟩
      ⟨"a b c d e", "a b c d e", []⟩ (7/10) = true :=
    are_similar_true_of_eval _ _ _ _ score_merged_abcde (by norm_num)
  have hpass1 : similarity_deduplicate (7/10)
      [⟨"a b", "a b", []⟩, ⟨"a b c d e", "a b c d e", []⟩, ⟨"a b c", "a b c", []⟩] =
      [⟨"a b c", "a b a b c", []⟩, ⟨"a b c d e", "a b c d e", []⟩] := by
    unfold similarity_deduplicate
    rw [if_neg (by decide)]
    simp only [dedupGo, absorb, h01, h02, hmerge, if_true, Bool.false_eq_true,
      if_false]
  have hpass2 : similarity_deduplicate (7/10)
      [⟨"a b c", "a b a b c", []⟩, ⟨"a b c d e", "a b c d e", []⟩] =
      [⟨"a b c d e", "a b a b c a b c d e", []⟩] := by
    unfold similarity_deduplicate
    rw [if_neg (by decide)]
    simp only [dedupGo, absorb, hm1, if_true]
    decide
  refine ⟨hpass1, hpass2, ?_, hm1⟩
  rw [hpass1, hpass2]
  decide

lemma absorb_of_pairwise_dissimilar (threshold : ℚ) (current : Module)
    (rest : List Module)
    (h : ∀ m ∈ rest, are_similar current m threshold = false) :
    absorb threshold current rest = (current, rest) := by
  induction rest with
  | nil => rfl
  | cons a t ih =>
    have ha : are_similar current a threshold = false := h a (List.mem_cons_self a t)
    have ht := ih (fun m hm => h m (List.mem_cons_of_mem a hm))
    simp [absorb, ha, ht]

lemma dedupGo_of_pairwise_dissimilar (threshold : ℚ) :
    ∀ (modules : List Module) (fuel : ℕ), modules.length ≤ fuel →
      modules.Pairwise (fun a b => are_similar a b threshold = false) →
      dedupGo threshold fuel modules = modules := by
  intro modules
  induction modules with
  | nil => intro fuel _ _; cases fuel <;> rfl
  | cons a t ih =>
    intro fuel hlen hp
    rcases fuel with _ | fuel
    · simp at hlen
    · rw [List.pairwise_cons] at hp
      have habs := absorb_of_pairwise_dissimilar threshold a t hp.1
      simp only [dedupGo, habs]
      rw [ih fuel (by simpa using hlen) hp.2]

/-- C4 (amended): phase-1 lexical deduplication is NOT idempotent in general
(see the counterexample: merging mutates the module later candidates are
compared against, so two emitted modules can again score at or above the
threshold).  What does hold is that `_similarity_deduplicate` is the identity
on every list whose modules are pairwise dissimilar at the threshold; in
particular a second application changes nothing exactly when the first pass's
output happens to be pairwise dissimilar. -/
theorem dedup_identity_of_pairwise_dissimilar (threshold : ℚ)
    (modules : List Module)
    (h : modules.Pairwise (fun a b => are_similar a b threshold = false)) :
    similarity_deduplicate threshold modules = modules := by
  unfold similarity_deduplicate
  by_cases hlen : modules.length ≤ 1
  · rw [if_pos hlen]
  · rw [if_neg hlen]
    exact dedupGo_of_pairwise_dissimilar threshold modules modules.length le_rfl h

/-- Witness for C4's amended theorem at a concrete pairwise-dissimilar list. -/
theorem dedup_identity_witness :
    List.Pairwise (fun a b => are_similar a b (7/10) = false)
      [(⟨"alpha", "", []⟩ : Module), ⟨"beta", "", []⟩] ∧
    similarity_deduplicate (7/10) [(⟨"alpha", "", []⟩ : Module), ⟨"beta", "", []⟩] =
      [(⟨"alpha", "", []⟩ : Module), ⟨"beta", "", []⟩] := by
  have hscore : combined_similarity (⟨"alpha", "", []⟩ : Module) ⟨"beta", "", []⟩ =
      0 := by
    unfold combined_similarity
    rw [simple_similarity_eval "alpha" "beta" 0 2 1 (by decide) (by decide)
        (by decide) (by decide) (by decide) (by decide),
      simple_similarity_of_empty "" "" (Or.inl (by decide))]
    norm_num
  have hfalse : are_similar (⟨"alpha", "", []⟩ : Module) ⟨"beta", "", []⟩ (7/10) =
      false := are_similar_false_of_eval _ _ _ _ hscore (by norm_num)
  have hp : List.Pairwise (fun a b => are_similar a b (7/10) = false)
      [(⟨"alpha", "", []⟩ : Module), ⟨"beta", "", []⟩] := by
    simp [List.pairwise_cons, hfalse]
  exact ⟨hp, dedup_identity_of_pairwise_dissimilar (7/10) _ hp⟩

/-- The chunk-index invariant: for every URL, the indices of the chunks
carrying that URL are exactly `0, 1, …` in order. -/
def chunkIndexInv (chunks : List Chunk) : Prop :=
  ∀ u : String,
    ((chunks.filter (fun c => c.url = u)).map (fun c => c.chunk_index)) =
      List.range ((chunks.filter (fun c => c.url = u)).length)

lemma chunkIndexInv_nil : chunkIndexInv [] := by
  intro u
  simp

lemma chunkIndexInv_append (chunks : List Chunk) (h : chunkIndexInv chunks)
    (url content title : String) :
    chunkIndexInv (chunks ++
      [⟨url, content, title, (chunks.filter (fun c => c.url = url)).length⟩]) := by
  intro u
  rw [List.filter_append]
  by_cases hu : url = u
  · subst hu
    rw [List.filter_cons_of_pos (by simp), List.filter_nil, List.map_append,
      List.length_append, h url]
    simp [List.range_succ]
  · rw [List.filter_cons_of_neg (by simp [Ne.symm]; exact fun hc => hu hc),
      List.filter_nil, List.append_nil]
    exact h u

lemma emitChunks_chunkIndexInv (url title : String) (bufs : List (List String)) :
    ∀ chunks : List Chunk, chunkIndexInv chunks →
      chunkIndexInv (emitChunks url title chunks bufs) := by
  induction bufs with
  | nil => intro chunks h; exact h
  | cons buf rest ih =>
    intro chunks h
    unfold emitChunks
    by_cases hb : pyStrip (pyJoin "\n" buf) = ""
    · rw [if_pos hb]
      exact ih chunks h
    · rw [if_neg hb]
      exact ih _ (chunkIndexInv_append chunks h url (pyStrip (pyJoin "\n" buf)) title)

lemma chunk_foldl_chunkIndexInv (min_tokens max_tokens : Nat) (tok : String → Nat) :
    ∀ (pages : List CleanedPage) (chunks : List Chunk), chunkIndexInv chunks →
      chunkIndexInv (pages.foldl (fun chunks page =>
        if pyStrip page.content = "" then chunks
        else emitChunks page.url page.title chunks
          (chunkBuffers min_tokens max_tokens tok (pySplit '\n' page.content) [] 0))
        chunks) := by
  intro pages
  induction pages with
  | nil => intro chunks h; exact h
  | cons page rest ih =>
    intro chunks h
    rw [List.foldl_cons]
    by_cases hp : pyStrip page.content = ""
    · rw [if_pos hp]
      exact ih chunks h
    · rw [if_neg hp]
      exact ih _ (emitChunks_chunkIndexInv page.url page.title _ chunks h)

/-- C8: for every token counter, page list and URL, the `chunk_index` values
of the chunks emitted for that URL are exactly `0 … k-1`, with no gaps and no
repeats, increasing in emission order. -/
theorem chunk_indices_exact (min_tokens max_tokens : Nat) (tok : String → Nat)
    (pages : List CleanedPage) (u : String) :
    (((chunk min_tokens max_tokens tok pages).filter (fun c => c.url = u)).map
        (fun c => c.chunk_index)) =
      List.range
        (((chunk min_tokens max_tokens tok pages).filter (fun c => c.url = u)).length) :=
  chunk_foldl_chunkIndexInv min_tokens max_tokens tok pages [] chunkIndexInv_nil u

lemma chunkBuffers_ne_nil (min_tokens max_tokens : Nat) (tok : String → Nat) :
    ∀ (lines : List String) (cur : List String) (ct : Nat), cur ≠ [] →
      chunkBuffers min_tokens max_tokens tok lines cur ct ≠ [] := by
  intro lines
  induction lines with
  | nil =>
    intro cur ct hcur
    simp [chunkBuffers, hcur]
  | cons line rest ih =>
    intro cur ct hcur
    unfold chunkBuffers
    by_cases hc : max_tokens < ct + tok line ∧ min_tokens ≤ ct
    · rw [if_pos hc]
      exact List.cons_ne_nil _ _
    · rw [if_neg hc]
      exact ih (cur ++ [line]) (ct + tok line) (by simp)

lemma chunkBuffers_bounds (min_tokens max_tokens : Nat) (tok : String → Nat) :
    ∀ (lines : List String) (cur : List String),
      ((cur.map tok).sum ≤ max_tokens ∨
        ∃ front lastLine, cur = front ++ [lastLine] ∧
          (front = [] ∨ (front.map tok).sum < min_tokens)) →
      ∀ buf ∈ (chunkBuffers min_tokens max_tokens tok lines cur
          ((cur.map tok).sum)).dropLast,
        min_tokens ≤ (buf.map tok).sum ∧
          ((buf.map tok).sum ≤ max_tokens ∨
            ∃ front lastLine, buf = front ++ [lastLine] ∧
              (front = [] ∨ (front.map tok).sum < min_tokens)) := by
  intro lines
  induction lines with
  | nil =>
    intro cur _ buf hbuf
    unfold chunkBuffers at hbuf
    by_cases hcur : cur = []
    · rw [if_pos hcur] at hbuf
      simp at hbuf
    · rw [if_neg hcur] at hbuf
      simp at hbuf
  | cons line rest ih =>
    intro cur hcur buf hbuf
    unfold chunkBuffers at hbuf
    by_cases hc : max_tokens < (cur.map tok).sum + tok line ∧
        min_tokens ≤ (cur.map tok).sum
    · rw [if_pos hc] at hbuf
      have hrec_ne : chunkBuffers min_tokens max_tokens tok rest [line] (tok line) ≠
          [] := chunkBuffers_ne_nil min_tokens max_tokens tok rest [line] (tok line)
          (by simp)
      rcases hrec : chunkBuffers min_tokens max_tokens tok rest [line] (tok line)
        with _ | ⟨b0, bs⟩
      · exact absurd hrec hrec_ne
      · rw [hrec] at hbuf
        rw [List.dropLast_cons₂] at hbuf
        rcases List.mem_cons.mp hbuf with hbc | hbm
        · subst hbc
          exact ⟨hc.2, hcur⟩
        · have hsum : tok line = (([line].map tok)).sum := by simp
          have := ih [line] (Or.inr ⟨[], line, rfl, Or.inl rfl⟩) buf
          rw [← hsum] at this
          exact this (by rw [hrec]; exact hbm)
    · rw [if_neg hc] at hbuf
      have hsum : (cur.map tok).sum + tok line = (((cur ++ [line]).map tok)).sum := by
        simp
      have hok : (((cur ++ [line]).map tok).sum ≤ max_tokens ∨
          ∃ front lastLine, cur ++ [line] = front ++ [lastLine] ∧
            (front = [] ∨ (front.map tok).sum < min_tokens)) := by
        by_cases hle : ((cur ++ [line]).map tok).sum ≤ max_tokens
        · exact Or.inl hle
        · refine Or.inr ⟨cur, line, rfl, Or.inr ?_⟩
          rw [← hsum] at hle
          rcases Nat.lt_or_ge (cur.map tok).sum min_tokens with hlt | hge
          · exact hlt
          · exact absurd ⟨Nat.lt_of_not_le (fun hx => hle (Nat.le_of_lt_succ
              (Nat.lt_succ_of_le hx))), hge⟩ hc
      have := ih (cur ++ [line]) hok buf
      rw [← hsum] at this
      exact this hbuf

/-- C2 (amended): measuring a chunk by the running sum of its lines' token
counts (as the accumulation loop does), every buffer flushed before the final
one has at least `min_tokens` tokens, and at most `max_tokens` tokens UNLESS
its final line was appended while the accumulated count was still below
`min_tokens` (in particular a single line alone exceeding `max_tokens`).
Oversized buffers are still flushed; a buffer is only dropped when its text
strips to the empty string. -/
theorem chunk_buffer_token_bounds (min_tokens max_tokens : Nat)
    (tok : String → Nat) (lines : List String) (buf : List String)
    (hbuf : buf ∈ (chunkBuffers min_tokens max_tokens tok lines [] 0).dropLast) :
    min_tokens ≤ (buf.map tok).sum ∧
      ((buf.map tok).sum ≤ max_tokens ∨
        ∃ front lastLine, buf = front ++ [lastLine] ∧
          (front = [] ∨ (front.map tok).sum < min_tokens)) :=
  chunkBuffers_bounds min_tokens max_tokens tok lines []
    (Or.inl (Nat.zero_le _)) buf hbuf

/-- Witness for C2's amended theorem: on five 3-token lines with
`min_tokens = 10`, `max_tokens = 11`, the first flushed buffer holds the
first four lines (12 tokens, over the bound, last line added below the
minimum). -/
theorem chunk_buffer_token_bounds_witness :
    (["aaaaaaaaaaaa", "bbbbbbbbbbbb", "cccccccccccc", "dddddddddddd"] ∈
      (chunkBuffers 10 11 fallback_count_tokens
        ["aaaaaaaaaaaa", "bbbbbbbbbbbb", "cccccccccccc", "dddddddddddd",
         "eeeeeeeeeeee"] [] 0).dropLast) ∧
    10 ≤ ((["aaaaaaaaaaaa", "bbbbbbbbbbbb", "cccccccccccc", "dddddddddddd"].map
      fallback_count_tokens).sum) :=
  ⟨by decide,
   (chunk_buffer_token_bounds 10 11 fallback_count_tokens
      ["aaaaaaaaaaaa", "bbbbbbbbbbbb", "cccccccccccc", "dddddddddddd",
       "eeeeeeeeeeee"]
      ["aaaaaaaaaaaa", "bbbbbbbbbbbb", "cccccccccccc", "dddddddddddd"]
      (by decide)).1⟩

/-- C2 counterexample: with `min_tokens = 10`, `max_tokens = 11` and the
fallback token counter, a page of five 12-character lines (3 tokens each, so
no single line exceeds `max_tokens`) emits a first chunk of 12 tokens —
outside `[min_tokens, max_tokens]` — that is neither the final chunk of its
page nor a chunk formed from a single oversized line, refuting the claim. -/
theorem chunk_token_range_counterexample :
    (chunk 10 11 fallback_count_tokens
        [⟨"u", "t",
          "aaaaaaaaaaaa\nbbbbbbbbbbbb\ncccccccccccc\ndddddddddddd\neeeeeeeeeeee"⟩]).map
      (fun c => c.content) =
      ["aaaaaaaaaaaa\nbbbbbbbbbbbb\ncccccccccccc\ndddddddddddd", "eeeeeeeeeeee"] ∧
    fallback_count_tokens "aaaaaaaaaaaa\nbbbbbbbbbbbb\ncccccccccccc\ndddddddddddd" =
      12 ∧
    ¬ (12 ≤ 11) ∧
    (pySplit '\n' "aaaaaaaaaaaa\nbbbbbbbbbbbb\ncccccccccccc\ndddddddddddd").length =
      4 ∧
    (pySplit '\n' "aaaaaaaaaaaa\nbbbbbbbbbbbb\ncccccccccccc\ndddddddddddd").all
      (fun l => fallback_count_tokens l ≤ 11) = true := by
  refine ⟨by decide, by decide, by decide, by decide, by decide⟩

lemma string_ext {s t : String} (h : s.data = t.data) : s = t := by
  cases s
  cases t
  exact congrArg String.mk (by simpa using h)

lemma data_ne_nil_of_ne_empty {s : String} (h : s ≠ "") : s.data ≠ [] := by
  intro hd
  exact h (string_ext (by simpa using hd))

lemma pyEndsWithChar_append (a b : String) (c : Char) (hb : b ≠ "") :
    pyEndsWithChar (a ++ b) c = pyEndsWithChar b c := by
  unfold pyEndsWithChar
  rw [String.data_append, List.getLast?_append_of_ne_nil _ (data_ne_nil_of_ne_empty hb)]

lemma dropLast_string_append (a b : String) (hb : b ≠ "") :
    String.mk (a ++ b).data.dropLast = a ++ String.mk b.data.dropLast := by
  apply string_ext
  rw [String.data_append]
  show ((a.data ++ b.data).dropLast) = a.data ++ b.data.dropLast
  exact List.dropLast_append_of_ne_nil _ (data_ne_nil_of_ne_empty hb)

/-- C7 counterexample: on `http://a.com/b/?q=1` the path is `/b/` (not the
root), yet its trailing slash is NOT removed, because the code inspects the
last character of the whole assembled string (which here belongs to the
query); and on `http://a.com/b?q=/` the query is not kept intact — its final
slash is removed. -/
theorem normalize_url_counterexample :
    normalize_url "http://a.com/b/?q=1" = "http://a.com/b/?q=1" ∧
    (urlparse "http://a.com/b/?q=1").path = "/b/" ∧
    (urlparse "http://a.com/b/?q=1").path ≠ "/" ∧
    normalize_url "http://a.com/b/?q=1" ≠ "http://a.com/b?q=1" ∧
    normalize_url "http://a.com/b?q=/" = "http://a.com/b?q=" := by
  refine ⟨by decide, by decide, by decide, by decide, by decide⟩

/-- C7 (amended): `_normalize_url` assembles `scheme://host/path[?query]`
with the fragment stripped, then removes the FINAL CHARACTER of the whole
string when it is `/` and the path is longer than one character.
Consequently, when no query is present a trailing slash is removed from the
path (unless the path has length ≤ 1, e.g. the root `/`); when a query is
present the path keeps its trailing slash and it is the query that loses a
final `/`. -/
theorem normalize_url_amended (url : String) :
    ((urlparse url).query = "" →
      normalize_url url =
        (urlparse url).scheme ++ "://" ++ (urlparse url).netloc ++
          (if pyEndsWithChar (urlparse url).path '/' ∧ 1 < (urlparse url).path.length
           then String.mk (urlparse url).path.data.dropLast
           else (urlparse url).path)) ∧
    ((urlparse url).query ≠ "" →
      normalize_url url =
        (urlparse url).scheme ++ "://" ++ (urlparse url).netloc ++
          (urlparse url).path ++ "?" ++
          (if pyEndsWithChar (urlparse url).query '/' ∧ 1 < (urlparse url).path.length
           then String.mk (urlparse url).query.data.dropLast
           else (urlparse url).query)) := by
  constructor
  · intro hq
    simp only [normalize_url]
    have hq' : ¬ ((urlparse url).query ≠ "") := by simp [hq]
    rw [if_neg hq']
    by_cases hp : (urlparse url).path = ""
    · have hc1 : ¬ (pyEndsWithChar ((urlparse url).scheme ++ "://" ++
          (urlparse url).netloc ++ (urlparse url).path) '/' = true ∧
          1 < (urlparse url).path.length) := by
        simp [hp]
      have hc2 : ¬ (pyEndsWithChar (urlparse url).path '/' = true ∧
          1 < (urlparse url).path.length) := by
        simp [hp]
      rw [if_neg hc1, if_neg hc2]
    · rw [pyEndsWithChar_append ((urlparse url).scheme ++ "://" ++
        (urlparse url).netloc) (urlparse url).path '/' hp]
      by_cases hcond : pyEndsWithChar (urlparse url).path '/' = true ∧
          1 < (urlparse url).path.length
      · rw [if_pos hcond, if_pos hcond]
        exact dropLast_string_append _ _ hp
      · rw [if_neg hcond, if_neg hcond]
  · intro hq
    simp only [normalize_url]
    rw [if_pos hq]
    rw [pyEndsWithChar_append ((urlparse url).scheme ++ "://" ++
      (urlparse url).netloc ++ (urlparse url).path ++ "?") (urlparse url).query
      '/' hq]
    by_cases hcond : pyEndsWithChar (urlparse url).query '/' = true ∧
        1 < (urlparse url).path.length
    · rw [if_pos hcond, if_pos hcond]
      exact dropLast_string_append _ _ hq
    · rw [if_neg hcond, if_neg hcond]

/-- Witness for C7's amended theorem at concrete URLs with and without a
query. -/
theorem normalize_url_amended_witness :
    ((urlparse "http://a.com/b/").query = "" ∧
      normalize_url "http://a.com/b/" =
        (urlparse "http://a.com/b/").scheme ++ "://" ++
          (urlparse "http://a.com/b/").netloc ++
          (if pyEndsWithChar (urlparse "http://a.com/b/").path '/' ∧
              1 < (urlparse "http://a.com/b/").path.length
           then String.mk (urlparse "http://a.com/b/").path.data.dropLast
           else (urlparse "http://a.com/b/").path)) ∧
    ((urlparse "http://a.com/b?q=/").query ≠ "" ∧
      normalize_url "http://a.com/b?q=/" =
        (urlparse "http://a.com/b?q=/").scheme ++ "://" ++
          (urlparse "http://a.com/b?q=/").netloc ++
          (urlparse "http://a.com/b?q=/").path ++ "?" ++
          (if pyEndsWithChar (urlparse "http://a.com/b?q=/").query '/' ∧
              1 < (urlparse "http://a.com/b?q=/").path.length
           then String.mk (urlparse "http://a.com/b?q=/").query.data.dropLast
           else (urlparse "http://a.com/b?q=/").query)) :=
  ⟨⟨by decide, (normalize_url_amended "http://a.com/b/").1 (by decide)⟩,
   ⟨by decide, (normalize_url_amended "http://a.com/b?q=/").2 (by decide)⟩⟩

/-- `m` is a left-to-right `merge_modules` fold of two or more modules drawn
from `modules` (possibly with repeats). -/
def mergeFoldOf (modules : List Module) (m : Module) : Prop :=
  ∃ (first : Module) (rest : List Module), first ∈ modules ∧
    (∀ x ∈ rest, x ∈ modules) ∧ rest ≠ [] ∧ m = rest.foldl merge_modules first

lemma foldl_preserve {α β : Type} (f : β → α → β) (P : β → Prop)
    (hstep : ∀ b a, P b → P (f b a)) :
    ∀ (l : List α) (b : β), P b → P (l.foldl f b) := by
  intro l
  induction l with
  | nil => intro b hb; exact hb
  | cons a t ih =>
    intro b hb
    rw [List.foldl_cons]
    exact ih _ (hstep b a hb)

lemma groupIndices_lt (n : ℕ) (g : List Int) : ∀ i ∈ groupIndices n g, i < n := by
  intro i hi
  unfold groupIndices at hi
  rw [List.mem_filterMap] at hi
  obtain ⟨idx, _, hsome⟩ := hi
  by_cases hc : 0 < idx ∧ idx ≤ (n : Int)
  · rw [if_pos hc] at hsome
    have : (idx - 1).toNat = i := Option.some.inj hsome
    omega
  · rw [if_neg hc] at hsome
    exact absurd hsome (Option.noConfusion)

lemma getD_mem_of_lt (l : List Module) (i : ℕ) (h : i < l.length) :
    l.getD i default ∈ l := by
  rw [List.getD_eq_getElem?_getD, List.getElem?_eq_getElem h]
  exact List.getElem_mem h

lemma processGroup_prov (modules : List Module) (st : List Module × List ℕ)
    (g : List Int) (h : ∀ x ∈ st.1, x ∈ modules ∨ mergeFoldOf modules x) :
    ∀ x ∈ (processGroup modules st g).1, x ∈ modules ∨ mergeFoldOf modules x := by
  intro x hx
  unfold processGroup at hx
  by_cases hlen : 1 < (groupIndices modules.length g).length
  · rw [if_pos hlen] at hx
    rcases hidx : groupIndices modules.length g with _ | ⟨i0, irest⟩
    · rw [hidx] at hx
      exact h x hx
    · rw [hidx] at hx
      simp only [List.mem_append, List.mem_singleton] at hx
      rcases hx with hx | hx
      · exact h x hx
      · right
        refine ⟨modules.getD i0 default,
          irest.map (fun idx => modules.getD idx default), ?_, ?_, ?_, ?_⟩
        · exact getD_mem_of_lt modules i0
            (groupIndices_lt modules.length g i0 (by rw [hidx]; exact List.mem_cons_self _ _))
        · intro y hy
          rw [List.mem_map] at hy
          obtain ⟨idx, hidx2, rfl⟩ := hy
          exact getD_mem_of_lt modules idx
            (groupIndices_lt modules.length g idx
              (by rw [hidx]; exact List.mem_cons_of_mem _ hidx2))
        · intro hnil
          rw [List.map_eq_nil_iff] at hnil
          rw [hidx, hnil] at hlen
          simp at hlen
        · rw [hx, List.foldl_map]
  · rw [if_neg hlen] at hx
    exact h x hx

lemma keepStep_prov (modules : List Module) (processed : List ℕ)
    (acc : List Module) (idx : Int)
    (h : ∀ x ∈ acc, x ∈ modules ∨ mergeFoldOf modules x) :
    ∀ x ∈ keepStep modules processed acc idx,
      x ∈ modules ∨ mergeFoldOf modules x := by
  intro x hx
  unfold keepStep at hx
  by_cases hc : 0 ≤ idx - 1 ∧ idx - 1 < (modules.length : Int) ∧
      (idx - 1).toNat ∉ processed
  · rw [if_pos hc] at hx
    simp only [List.mem_append, List.mem_singleton] at hx
    rcases hx with hx | hx
    · exact h x hx
    · left
      rw [hx]
      exact getD_mem_of_lt modules (idx - 1).toNat (by omega)
  · rw [if_neg hc] at hx
    exact h x hx

/-- C10 (amended): every module returned by `_llm_deduplicate_batch` is
either one of the input modules unchanged, or a left-to-right
`merge_modules` fold of two or more input modules — possibly with repeats,
since a duplicates group may list the same 1-based index more than once;
out-of-range indices in `duplicates` or `keep` are filtered out and never
cause an out-of-range access. -/
theorem llm_dedup_provenance (modules : List Module) (response : LLMResponse)
    (m : Module) (hm : m ∈ llm_deduplicate_batch modules response) :
    m ∈ modules ∨ mergeFoldOf modules m := by
  unfold llm_deduplicate_batch at hm
  by_cases hlen : modules.length ≤ 1
  · rw [if_pos hlen] at hm
    exact Or.inl hm
  · rw [if_neg hlen] at hm
    have hstep1 : ∀ x ∈ (response.duplicates.foldl (processGroup modules)
        ([], [])).1, x ∈ modules ∨ mergeFoldOf modules x := by
      have := foldl_preserve (processGroup modules)
        (fun st => ∀ x ∈ st.1, x ∈ modules ∨ mergeFoldOf modules x)
        (fun st g hst => processGroup_prov modules st g hst)
        response.duplicates ([], []) (by intro x hx; simp at hx)
      exact this
    have hstep2 : ∀ x ∈ response.keep.dedup.foldl
        (keepStep modules (response.duplicates.foldl (processGroup modules)
          ([], [])).2)
        (response.duplicates.foldl (processGroup modules) ([], [])).1,
        x ∈ modules ∨ mergeFoldOf modules x := by
      exact foldl_preserve _ (fun acc => ∀ x ∈ acc, x ∈ modules ∨ mergeFoldOf modules x)
        (fun acc idx hacc => keepStep_prov modules _ acc idx hacc)
        response.keep.dedup _ hstep1
    by_cases hempty : response.keep.dedup.foldl
        (keepStep modules (response.duplicates.foldl (processGroup modules)
          ([], [])).2)
        (response.duplicates.foldl (processGroup modules) ([], [])).1 = []
    · rw [if_pos hempty] at hm
      exact Or.inl hm
    · rw [if_neg hempty] at hm
      exact hstep2 m hm

/-- Witness for C10's amended theorem: a batch where the response keeps both
modules unchanged. -/
theorem llm_dedup_provenance_witness :
    ((⟨"A", "x", []⟩ : Module) ∈ llm_deduplicate_batch
        [⟨"A", "x", []⟩, ⟨"B", "y", []⟩] ⟨[], [1, 2]⟩) ∧
    ((⟨"A", "x", []⟩ : Module) ∈ ([⟨"A", "x", []⟩, ⟨"B", "y", []⟩] : List Module) ∨
      mergeFoldOf [⟨"A", "x", []⟩, ⟨"B", "y", []⟩] ⟨"A", "x", []⟩) :=
  ⟨by decide,
   llm_dedup_provenance [⟨"A", "x", []⟩, ⟨"B", "y", []⟩] ⟨[], [1, 2]⟩
     ⟨"A", "x", []⟩ (by decide)⟩

/-- C10 counterexample: the response `{"duplicates": [[1, 1]], "keep": []}`
makes the batch merge module 1 with ITSELF: the output module
`{module := "A", Description := "x x"}` is not an input module, and it is not
a merge fold of two or more DISTINCT input modules (the only such folds of
the two-element batch are `merge_modules m0 m1` and `merge_modules m1 m0`). -/
theorem llm_dedup_counterexample :
    llm_deduplicate_batch [⟨"A", "x", []⟩, ⟨"B", "y", []⟩] ⟨[[1, 1]], []⟩ =
      [⟨"A", "x x", []⟩] ∧
    (⟨"A", "x x", []⟩ : Module) ∉ ([⟨"A", "x", []⟩, ⟨"B", "y", []⟩] : List Module) ∧
    (⟨"A", "x x", []⟩ : Module) ≠
      merge_modules ⟨"A", "x", []⟩ ⟨"B", "y", []⟩ ∧
    (⟨"A", "x x", []⟩ : Module) ≠
      merge_modules ⟨"B", "y", []⟩ ⟨"A", "x", []⟩ := by
  refine ⟨by decide, by decide, by decide, by decide⟩

lemma fetch_page_subset (web : String → Option String) (visited : List String)
    (url : String) : visited ⊆ (fetch_page web visited url).2 := by
  simp only [fetch_page]
  split
  · exact fun x hx => hx
  · split
    · exact fun x hx => List.mem_cons_of_mem _ hx
    · exact fun x hx => hx

lemma fetch_page_success_facts (web : String → Option String)
    (visited : List String) (url : String)
    (h : (fetch_page web visited url).1.status = .success) :
    (fetch_page web visited url).1.url = normalize_url url ∧
    normalize_url url ∉ visited ∧
    (fetch_page web visited url).2 = normalize_url url :: visited := by
  simp only [fetch_page] at h ⊢
  by_cases hv : normalize_url url ∈ visited
  · rw [if_pos hv] at h
    exact absurd h (by simp)
  · rw [if_neg hv] at h ⊢
    rcases hw : web (normalize_url url) with _ | body
    · rw [hw] at h
      exact absurd h (by simp)
    · exact ⟨rfl, hv, rfl⟩

lemma crawlLoop_inv (max_pages : ℕ) (web : String → Option String)
    (links : String → String → List String) :
    ∀ (queue visited : List String) (pages : List Page),
      pages.length ≤ max_pages →
      (∀ p ∈ pages, p.url ∈ visited) →
      ((pages.map (fun p => p.url)).Nodup) →
      (crawlLoop max_pages web links queue visited pages).length ≤ max_pages ∧
        ((crawlLoop max_pages web links queue visited pages).map
          (fun p => p.url)).Nodup := by
  intro queue visited pages
  induction queue, visited, pages using crawlLoop.induct max_pages web links with
  | case1 visited pages =>
    intro h1 _ h3
    rw [crawlLoop]
    exact ⟨h1, h3⟩
  | case2 c rest visited pages hmax =>
    intro h1 _ h3
    rw [crawlLoop, dif_pos hmax]
    exact ⟨h1, h3⟩
  | case3 c rest visited pages hmax hmem ih =>
    intro h1 h2 h3
    rw [crawlLoop, dif_neg hmax, if_pos hmem]
    exact ih h1 h2 h3
  | case4 c rest visited pages hmax hmem pv hcond ih =>
    intro h1 h2 h3
    rw [crawlLoop, dif_neg hmax, if_neg hmem]
    rw [if_pos hcond]
    obtain ⟨hurl, hnotv, hvis⟩ :=
      fetch_page_success_facts web visited c hcond.1
    apply ih
    · simp only [List.length_append, List.length_cons, List.length_nil]
      omega
    · intro p hp
      rcases List.mem_append.mp hp with hp | hp
      · exact fetch_page_subset web visited c (h2 p hp)
      · rw [List.mem_singleton.mp hp, hurl, hvis]
        exact List.mem_cons_self _ _
    · rw [List.map_append, List.map_cons, List.map_nil]
      rw [List.nodup_append]
      refine ⟨h3, List.nodup_singleton _, ?_⟩
      intro x hx
      simp only [List.mem_singleton]
      intro hcontra
      rw [List.mem_map] at hx
      obtain ⟨p, hp, hpx⟩ := hx
      apply hnotv
      rw [← hurl, ← hcontra, ← hpx]
      exact h2 p hp
  | case5 c rest visited pages hmax hmem pv hcond ih =>
    intro h1 h2 h3
    rw [crawlLoop, dif_neg hmax, if_neg hmem, if_neg hcond]
    exact ih h1 (fun p hp => fetch_page_subset web visited c (h2 p hp)) h3

lemma crawlLoop_maxed (max_pages : ℕ) (web : String → Option String)
    (links : String → String → List String) (queue visited : List String)
    (pages : List Page) (h : max_pages ≤ pages.length) :
    crawlLoop max_pages web links queue visited pages = pages := by
  cases queue with
  | nil => rw [crawlLoop]
  | cons c rest => rw [crawlLoop, dif_pos h]

lemma crawl_single_page (web : String → Option String)
    (links : String → String → List String) (s body : String)
    (hw : web (normalize_url (normalize_url s)) = some body) (hb : body ≠ "") :
    crawl 1 web links [s] =
      [⟨normalize_url (normalize_url s), body, .success⟩] := by
  unfold crawl
  rw [List.map_cons, List.map_nil]
  have hfp : fetch_page web [] (normalize_url s) =
      (⟨normalize_url (normalize_url s), body, .success⟩,
       [normalize_url (normalize_url s)]) := by
    simp only [fetch_page]
    rw [if_neg (by simp), hw]
  rw [crawlLoop, dif_neg (by simp), if_neg (by simp), hfp]
  rw [if_pos (by exact ⟨rfl, hb⟩)]
  rw [List.nil_append]
  exact crawlLoop_maxed 1 web links _ _ _ (by simp)

/-- C1: the crawl result never exceeds `max_pages` entries and no two of its
pages carry the same normalized URL (a normalized URL is fetched successfully
at most once per crawl); and with `max_pages = 1` and a seed whose normalized
URL fetches successfully with non-empty HTML, the crawler returns exactly
that one page, no matter what links the page contains. -/
theorem crawl_bounded_and_nodup :
    (∀ (max_pages : ℕ) (web : String → Option String)
       (links : String → String → List String) (start_urls : List String),
       (crawl max_pages web links start_urls).length ≤ max_pages ∧
         ((crawl max_pages web links start_urls).map (fun p => p.url)).Nodup) ∧
    (∀ (web : String → Option String) (links : String → String → List String)
       (s body : String),
       web (normalize_url (normalize_url s)) = some body → body ≠ "" →
       crawl 1 web links [s] =
         [⟨normalize_url (normalize_url s), body, .success⟩]) :=
  ⟨fun max_pages web links start_urls =>
    crawlLoop_inv max_pages web links (start_urls.map normalize_url) [] []
      (by simp) (by simp) (by simp),
   fun web links s body hw hb => crawl_single_page web links s body hw hb⟩

/-- Witness for C1's scenario: a constant web where every URL serves the page
`"x"`, and an extractor that always reports two links; `max_pages = 1` still
yields exactly one page. -/
theorem crawl_bounded_and_nodup_witness :
    ((fun _ : String => some "x") (normalize_url (normalize_url "http://a")) =
      some "x") ∧
    crawl 1 (fun _ => some "x") (fun _ _ => ["http://a/1", "http://a/2"])
        ["http://a"] =
      [⟨normalize_url (normalize_url "http://a"), "x", .success⟩] :=
  ⟨rfl,
   crawl_bounded_and_nodup.2 (fun _ => some "x")
     (fun _ _ => ["http://a/1", "http://a/2"]) "http://a" "x" rfl (by decide)⟩

lemma char_le_of_toNat_le {a b : Char} (h : a.toNat ≤ b.toNat) : a ≤ b := by
  rw [Char.le_def]
  exact h

lemma toNat_le_of_char_le {a b : Char} (h : a ≤ b) : a.toNat ≤ b.toNat := by
  rw [Char.le_def] at h
  exact h

lemma char_toNat_ofNat (n : ℕ) (h : n < 55296) : (Char.ofNat n).toNat = n := by
  have hv : n.isValidChar := Or.inl h
  rw [Char.ofNat, dif_pos hv]
  rfl

lemma asciiLowerChar_isSchemeChar (c : Char) (h : isSchemeChar c = true) :
    isSchemeChar (asciiLowerChar c) = true := by
  unfold asciiLowerChar
  by_cases hc : 'A' ≤ c ∧ c ≤ 'Z'
  · rw [if_pos hc]
    have h1 : (65 : ℕ) ≤ c.toNat := toNat_le_of_char_le hc.1
    have h2 : c.toNat ≤ (90 : ℕ) := toNat_le_of_char_le hc.2
    have hk : (Char.ofNat (c.toNat + 32)).toNat = c.toNat + 32 :=
      char_toNat_ofNat _ (by omega)
    unfold isSchemeChar
    apply decide_eq_true
    left
    refine ⟨char_le_of_toNat_le ?_, char_le_of_toNat_le ?_⟩
    · show ('a').toNat ≤ (Char.ofNat (c.toNat + 32)).toNat
      rw [hk]
      show (97 : ℕ) ≤ c.toNat + 32
      omega
    · show (Char.ofNat (c.toNat + 32)).toNat ≤ ('z').toNat
      rw [hk]
      show c.toNat + 32 ≤ (122 : ℕ)
      omega
  · rw [if_neg hc]
    exact h

lemma isSchemeChar_ne_delims (c : Char) (h : isSchemeChar c = true) :
    c ≠ '#' ∧ c ≠ '/' ∧ c ≠ '?' := by
  refine ⟨?_, ?_, ?_⟩ <;> intro hc <;> rw [hc] at h <;> exact absurd h (by decide)

lemma schemeSplit_chars (s : List Char) :
    ∀ c ∈ (schemeSplit s).1.data, isSchemeChar c = true := by
  unfold schemeSplit
  split
  · split
    · intro c hc
      rw [show (String.mk ((s.takeWhile isSchemeChar).map asciiLowerChar),
          _).1.data = (s.takeWhile isSchemeChar).map asciiLowerChar from rfl] at hc
      rw [List.mem_map] at hc
      obtain ⟨c', hc', rfl⟩ := hc
      exact asciiLowerChar_isSchemeChar c' (List.mem_takeWhile_imp hc')
    · intro c hc
      exact absurd hc (by simp)
  · intro c hc
    exact absurd hc (by simp)

lemma netlocSplit_chars (s : List Char) :
    ∀ c ∈ (netlocSplit s).1, c ≠ '#' ∧ c ≠ '/' ∧ c ≠ '?' := by
  unfold netlocSplit
  split
  · intro c hc
    have hcp := List.mem_takeWhile_imp hc
    have hnd : isNetlocDelim c = false := by
      simpa using of_decide_eq_true hcp
    refine ⟨?_, ?_, ?_⟩ <;> intro hceq <;> rw [hceq] at hnd <;>
      exact absurd hnd (by decide)
  · intro c hc
    exact absurd hc (by simp)

lemma mem_beforeChar_subset (c : Char) (s : List Char) :
    ∀ x ∈ beforeChar c s, x ∈ s :=
  fun _ hx => (List.takeWhile_sublist _).subset hx

lemma mem_beforeChar_ne (c : Char) (s : List Char) :
    ∀ x ∈ beforeChar c s, x ≠ c := by
  intro x hx
  have := List.mem_takeWhile_imp hx
  simpa using of_decide_eq_true this

lemma mem_afterChar_subset (c : Char) (s : List Char) :
    ∀ x ∈ afterChar c s, x ∈ s :=
  fun _ hx =>
    (List.dropWhile_sublist _).subset ((List.drop_sublist _ _).subset hx)

lemma splitParams_fst_subset (p : List Char) : ∀ c ∈ (splitParams p).1, c ∈ p := by
  simp only [splitParams]
  split
  · split
    · intro c hc
      rcases List.mem_append.mp hc with hc | hc
      · exact List.take_subset _ _ hc
      · have hseg := mem_beforeChar_subset ';' _ c hc
        rw [List.mem_reverse] at hseg
        have := (List.takeWhile_sublist _).subset hseg
        exact List.mem_reverse.mp this
    · intro c hc
      exact hc
  · split
    · intro c hc
      exact mem_beforeChar_subset ';' p c hc
    · intro c hc
      exact hc

lemma urlparse_scheme_chars (url : String) :
    ∀ c ∈ (urlparse url).scheme.data, isSchemeChar c = true :=
  fun c hc => schemeSplit_chars url.data c hc

lemma urlparse_netloc_chars (url : String) :
    ∀ c ∈ (urlparse url).netloc.data, c ≠ '#' ∧ c ≠ '/' ∧ c ≠ '?' :=
  fun c hc => netlocSplit_chars _ c hc

lemma urlparse_path_chars (url : String) :
    ∀ c ∈ (urlparse url).path.data, c ≠ '#' ∧ c ≠ '?' := by
  intro c hc
  have h1 := splitParams_fst_subset _ c hc
  exact ⟨mem_beforeChar_ne '#' _ c (mem_beforeChar_subset '?' _ c h1),
    mem_beforeChar_ne '?' _ c h1⟩

lemma urlparse_query_chars (url : String) :
    ∀ c ∈ (urlparse url).query.data, c ≠ '#' := by
  intro c hc
  exact mem_beforeChar_ne '#' _ c (mem_afterChar_subset '?' _ c hc)

/-- The shape guaranteed for every URL collected by `extract_internal_links`:
an `http(s)` URL written `scheme://host path [?query]` whose host component is
the base URL's netloc, containing no `#` anywhere (no fragment), with the
query kept as a `?`-prefixed suffix when present. -/
def CleanLink (base_netloc : String) (u : String) : Prop :=
  (pyStartsWith u "http://" = true ∨ pyStartsWith u "https://" = true) ∧
  (∀ c ∈ u.data, c ≠ '#') ∧
  ∃ scheme path query : String,
    u = scheme ++ "://" ++ base_netloc ++ path ++ query ∧
    (∀ c ∈ path.data, c ≠ '#' ∧ c ≠ '?') ∧
    (query = "" ∨ ∃ q : String, query = "?" ++ q ∧ ∀ c ∈ q.data, c ≠ '#')

lemma mem_data_append {s t : String} {c : Char} (h : c ∈ (s ++ t).data) :
    c ∈ s.data ∨ c ∈ t.data := by
  rw [String.data_append] at h
  exact List.mem_append.mp h

lemma mem_colonSlashSlash {c : Char} (h : c ∈ ("://" : String).data) : c ≠ '#' := by
  have h' : c ∈ [':', '/', '/'] := h
  simp only [List.mem_cons, List.not_mem_nil, or_false] at h'
  rcases h' with rfl | rfl | rfl <;> decide

lemma mem_qmark {c : Char} (h : c ∈ ("?" : String).data) : c ≠ '#' := by
  have h' : c ∈ ['?'] := h
  simp only [List.mem_cons, List.not_mem_nil, or_false] at h'
  rw [h']
  decide

lemma string_append_empty (s : String) : s ++ "" = s := by
  apply string_ext
  rw [String.data_append]
  exact List.append_nil _

lemma cleanLink_of_parts (bd scheme : String) (a : String)
    (hscheme : ∀ c ∈ scheme.data, isSchemeChar c = true)
    (hbd : ∀ c ∈ bd.data, c ≠ '#' ∧ c ≠ '/' ∧ c ≠ '?')
    (hstart :
      pyStartsWith (if (urlparse a).query ≠ "" then
          scheme ++ "://" ++ bd ++ (urlparse a).path ++ "?" ++ (urlparse a).query
        else scheme ++ "://" ++ bd ++ (urlparse a).path) "http://" = true ∨
      pyStartsWith (if (urlparse a).query ≠ "" then
          scheme ++ "://" ++ bd ++ (urlparse a).path ++ "?" ++ (urlparse a).query
        else scheme ++ "://" ++ bd ++ (urlparse a).path) "https://" = true) :
    CleanLink bd (if (urlparse a).query ≠ "" then
        scheme ++ "://" ++ bd ++ (urlparse a).path ++ "?" ++ (urlparse a).query
      else scheme ++ "://" ++ bd ++ (urlparse a).path) := by
  have hbase_chars : ∀ c ∈ (scheme ++ "://" ++ bd ++ (urlparse a).path).data,
      c ≠ '#' := by
    intro c hc
    rcases mem_data_append hc with hc | hc
    · rcases mem_data_append hc with hc | hc
      · rcases mem_data_append hc with hc | hc
        · exact (isSchemeChar_ne_delims c (hscheme c hc)).1
        · exact mem_colonSlashSlash hc
      · exact (hbd c hc).1
    · exact (urlparse_path_chars a c hc).1
  by_cases hq : (urlparse a).query ≠ ""
  · rw [if_pos hq] at hstart ⊢
    refine ⟨hstart, ?_, scheme, (urlparse a).path, "?" ++ (urlparse a).query,
      ?_, urlparse_path_chars a, Or.inr ⟨(urlparse a).query, rfl,
        urlparse_query_chars a⟩⟩
    · intro c hc
      rcases mem_data_append hc with hc | hc
      · rcases mem_data_append hc with hc | hc
        · exact hbase_chars c hc
        · exact mem_qmark hc
      · exact urlparse_query_chars a c hc
    · apply string_ext
      simp only [String.data_append, List.append_assoc]
  · rw [if_neg hq] at hstart ⊢
    refine ⟨hstart, hbase_chars, scheme, (urlparse a).path, "", ?_,
      urlparse_path_chars a, Or.inl rfl⟩
    rw [string_append_empty]

lemma insert_clean_step (bd : String) (acc : List String) (u : String)
    (hacc : acc.Nodup ∧ ∀ v ∈ acc, CleanLink bd v) (hu : CleanLink bd u) :
    (if u ∈ acc then acc else acc ++ [u]).Nodup ∧
      ∀ v ∈ (if u ∈ acc then acc else acc ++ [u]), CleanLink bd v := by
  by_cases hm : u ∈ acc
  · rw [if_pos hm]
    exact hacc
  · rw [if_neg hm]
    constructor
    · rw [List.nodup_append]
      exact ⟨hacc.1, List.nodup_singleton u,
        fun x hx => by
          simp only [List.mem_singleton]
          intro hxu
          exact hm (hxu ▸ hx)⟩
    · intro v hv
      rcases List.mem_append.mp hv with hv | hv
      · exact hacc.2 v hv
      · rw [List.mem_singleton.mp hv]
        exact hu

lemma addLink_preserve (bs bd : String) (acc : List String) (a : String)
    (hbs : ∀ c ∈ bs.data, isSchemeChar c = true)
    (hbd : ∀ c ∈ bd.data, c ≠ '#' ∧ c ≠ '/' ∧ c ≠ '?')
    (hacc : acc.Nodup ∧ ∀ u ∈ acc, CleanLink bd u) :
    (addLink bs bd acc a).Nodup ∧ ∀ u ∈ addLink bs bd acc a, CleanLink bd u := by
  simp only [addLink]
  by_cases hbr : (urlparse a).netloc = bd ∨
      ((urlparse a).netloc = "" ∧ (urlparse a).path ≠ "")
  · rw [if_pos hbr]
    have hnet : (if (urlparse a).netloc = "" then bd else (urlparse a).netloc) =
        bd := by
      by_cases hne : (urlparse a).netloc = ""
      · rw [if_pos hne]
      · rw [if_neg hne]
        rcases hbr with hbr | hbr
        · exact hbr
        · exact absurd hbr.1 hne
    rw [hnet]
    have hschemeChars : ∀ c ∈ (if (urlparse a).scheme = "" then bs
        else (urlparse a).scheme).data, isSchemeChar c = true := by
      by_cases hse : (urlparse a).scheme = ""
      · rw [if_pos hse]
        exact hbs
      · rw [if_neg hse]
        exact urlparse_scheme_chars a
    by_cases hstart : pyStartsWith (if (urlparse a).query ≠ "" then
        (if (urlparse a).scheme = "" then bs else (urlparse a).scheme) ++ "://" ++
          bd ++ (urlparse a).path ++ "?" ++ (urlparse a).query
      else (if (urlparse a).scheme = "" then bs else (urlparse a).scheme) ++
        "://" ++ bd ++ (urlparse a).path) "http://" = true ∨
        pyStartsWith (if (urlparse a).query ≠ "" then
          (if (urlparse a).scheme = "" then bs else (urlparse a).scheme) ++ "://" ++
            bd ++ (urlparse a).path ++ "?" ++ (urlparse a).query
        else (if (urlparse a).scheme = "" then bs else (urlparse a).scheme) ++
          "://" ++ bd ++ (urlparse a).path) "https://" = true
    · rw [if_pos hstart]
      exact insert_clean_step bd acc _ hacc
        (cleanLink_of_parts bd _ a hschemeChars hbd hstart)
    · rw [if_neg hstart]
      exact hacc
  · rw [if_neg hbr]
    exact hacc

/-- C6: for every HTML input, base URL and behavior of the library primitives
(anchor enumeration and `urljoin`), every URL collected by
`extract_internal_links` starts with `http://` or `https://`, contains no `#`
anywhere (fragments are stripped, so the set can never hold a fragment-only
variant of a collected URL), and is built as `scheme://` followed by the base
URL's netloc (substituted for host-relative links), the parsed path, and the
parsed query as a `?`-suffix when present; the returned collection is
duplicate-free. -/
theorem extract_internal_links_clean (hrefs : String → List String)
    (ujoin : String → String → String) (html base_url : String) :
    (extract_internal_links hrefs ujoin html base_url).Nodup ∧
      ∀ u ∈ extract_internal_links hrefs ujoin html base_url,
        CleanLink (urlparse base_url).netloc u := by
  unfold extract_internal_links
  exact foldl_preserve _
    (fun acc => acc.Nodup ∧ ∀ u ∈ acc, CleanLink (urlparse base_url).netloc u)
    (fun acc href hacc => addLink_preserve (urlparse base_url).scheme
      (urlparse base_url).netloc acc (ujoin base_url href)
      (urlparse_scheme_chars base_url) (urlparse_netloc_chars base_url) hacc)
    (hrefs html) [] ⟨List.nodup_nil, by simp⟩

/-- Witness for C6 at a concrete page: one link resolving to
`http://a.com/p#sec` is collected as `http://a.com/p`. -/
theorem extract_internal_links_clean_witness :
    ("http://a.com/p" ∈ extract_internal_links (fun _ => ["/p#sec"])
        (fun _ _ => "http://a.com/p#sec") "<html>" "http://a.com") ∧
    CleanLink (urlparse "http://a.com").netloc "http://a.com/p" :=
  ⟨by decide,
   (extract_internal_links_clean (fun _ => ["/p#sec"])
      (fun _ _ => "http://a.com/p#sec") "<html>" "http://a.com").2
     "http://a.com/p" (by decide)⟩

end ModuleExtraction
